import Mathlib

/-!
Formal model of the keyword clustering and scoring engine of the
seo-ai-agent repository (src/modules/keyword_clustering.py,
src/modules/competitor_audit.py, src/modules/opportunity_tracker.py,
src/utils/data_processing.py).

Modelling conventions:
* Python strings are `List Char` (`Str`); the model is ASCII-level: Python's
  Unicode-aware case folding and whitespace classes are modelled by their
  ASCII restrictions, which is what the repository's data exercises.
* Python floats are `ℚ`; integer arithmetic is `ℤ`.
* Python `None` is `Option.none`; a raised exception is `Except.error ()`.
* External collaborators (sklearn KMeans/DBSCAN, sentence embeddings,
  networkx community detection, SERP/trends HTTP clients, numpy RNG) are
  oracle parameters.  Where the library guarantees one output label per
  input point (sklearn's `fit_predict`), the oracle's type carries that
  length contract.
* Rational constants are written with `mkRat`, and division by 10 as
  multiplication by `mkRat 1 10`, so that terms reduce inside the kernel;
  both are definitionally the same rationals the Python floats denote.
-/

abbrev Str := List Char

/-- Minimum of two rationals via an explicit `if` (Python's `min`). -/
def qmin (a b : ℚ) : ℚ := if a ≤ b then a else b

/-- Maximum of two rationals via an explicit `if` (Python's `max`). -/
def qmax (a b : ℚ) : ℚ := if a ≤ b then b else a

/-- Minimum of two integers via an explicit `if` (Python's `min`). -/
def zmin (a b : ℤ) : ℤ := if a ≤ b then a else b

/-- Maximum of two integers via an explicit `if` (Python's `max`). -/
def zmax (a b : ℤ) : ℤ := if a ≤ b then b else a

/-! ### Text normalisation: `preprocess_text` (src/utils/data_processing.py, lines 10-42)

The Python function applies, in order: `str.lower`, removal of
`https?://\S+|www\.\S+` matches, removal of `<.*?>` matches, removal of
`string.punctuation` characters, and `re.sub(r'\s+', ' ', text).strip()`.
The two regex substitutions are implemented below as executable scanners
with exactly Python's leftmost, non-overlapping match semantics. -/

/-- The ASCII whitespace characters matched by Python's `\s` and stripped
by `str.strip`: space, tab, newline, carriage return, form feed, vertical
tab. -/
def isPySpace (c : Char) : Bool :=
  c = ' ' || c = '\t' || c = '\n' || c = '\r' || c = '\x0c' || c = '\x0b'

/-- A character matched by `\S` (non-whitespace). -/
def notSpace (c : Char) : Bool := !(isPySpace c)

/-- The 32 characters of Python's `string.punctuation`. -/
def pyPunct : Str :=
  ['!', '\"', '#', '$', '%', '&', '\'', '(', ')', '*', '+', ',', '-', '.',
   '/', ':', ';', '<', '=', '>', '?', '@', '[', '\\', ']', '^', '_', '\x60',
   '\x7b', '|', '\x7d', '~']

/-- Membership in `string.punctuation`. -/
def isPunct (c : Char) : Bool := pyPunct.contains c

/-- After the literal part of a URL pattern, `\S+` must match: at least one
non-whitespace character, then greedily all following non-whitespace.
Returns the remainder of the input after the match, or `none`. -/
def urlTail (r : Str) : Option Str :=
  match r with
  | [] => none
  | c :: _ => if notSpace c then some (r.dropWhile notSpace) else none

/-- One attempted match of `https?://\S+|www\.\S+` at the head of the
input (the three literal alternatives are mutually exclusive on their
discriminating character, so no backtracking interplay arises).  Returns
the remainder after the match. -/
def matchUrl : Str → Option Str
  | 'h' :: 't' :: 't' :: 'p' :: 's' :: ':' :: '/' :: '/' :: r => urlTail r
  | 'h' :: 't' :: 't' :: 'p' :: ':' :: '/' :: '/' :: r => urlTail r
  | 'w' :: 'w' :: 'w' :: '.' :: r => urlTail r
  | _ => none

/-- Scanner for `re.sub(r'https?://\S+|www\.\S+', '', text)`: at each
position try a match; on success continue after it, otherwise keep the
character.  Fuel-structured so the definition reduces in the kernel; the
fuel is always instantiated with the input length, which suffices because
every step consumes at least one character. -/
def removeUrlsFuel : Nat → Str → Str
  | 0, _ => []
  | _, [] => []
  | fuel + 1, c :: cs =>
    match matchUrl (c :: cs) with
    | some r => removeUrlsFuel fuel r
    | none => c :: removeUrlsFuel fuel cs

/-- Model of `re.sub(r'https?://\S+|www\.\S+', '', text)`. -/
def removeUrls (l : Str) : Str := removeUrlsFuel l.length l

/-- For the non-greedy `<.*?>`: scan for the first `'>'`; `.` does not
match a newline, so a `'\n'` before it aborts the match.  Returns the
remainder after the `'>'`. -/
def tagEnd : Str → Option Str
  | [] => none
  | c :: r => if c = '>' then some r else if c = '\n' then none else tagEnd r

/-- Scanner for `re.sub(r'<.*?>', '', text)` (fuel-structured as above). -/
def removeTagsFuel : Nat → Str → Str
  | 0, _ => []
  | _, [] => []
  | fuel + 1, c :: cs =>
    if c = '<' then
      (match tagEnd cs with
       | some r => removeTagsFuel fuel r
       | none => '<' :: removeTagsFuel fuel cs)
    else c :: removeTagsFuel fuel cs

/-- Model of `re.sub(r'<.*?>', '', text)`. -/
def removeTags (l : Str) : Str := removeTagsFuel l.length l

/-- Model of `text.translate(str.maketrans('', '', string.punctuation))`. -/
def removePunct (l : Str) : Str := l.filter (fun c => !(isPunct c))

/-- Model of `re.sub(r'\s+', ' ', text)`: each maximal whitespace run
becomes one space.  The flag records whether the previous character was
whitespace (i.e. we are inside a run whose space was already emitted). -/
def collapseAux : Bool → Str → Str
  | _, [] => []
  | true, c :: cs =>
    if isPySpace c then collapseAux true cs else c :: collapseAux false cs
  | false, c :: cs =>
    if isPySpace c then ' ' :: collapseAux true cs else c :: collapseAux false cs

/-- Model of `re.sub(r'\s+', ' ', text)`. -/
def collapseWs (l : Str) : Str := collapseAux false l

/-- Removal of trailing whitespace (the right half of `str.strip`). -/
def stripEnd : Str → Str
  | [] => []
  | c :: cs =>
    match stripEnd cs with
    | [] => if isPySpace c then [] else [c]
    | r => c :: r

/-- Model of `str.strip()`. -/
def stripStr (l : Str) : Str := stripEnd (l.dropWhile isPySpace)

/-- Model of `preprocess_text` (src/utils/data_processing.py, lines 10-42).
`if not text: return ""`, then lowercase, URL removal, tag removal,
punctuation removal, whitespace collapse and strip.  (The `except` branch
of the Python function is unreachable for string input: none of the five
steps raises.)  `Char.toLower` is exactly Python's `str.lower` on ASCII. -/
def preprocess_text (s : Str) : Str :=
  if s = [] then []
  else stripStr (collapseWs (removePunct (removeTags (removeUrls (s.map Char.toLower)))))

theorem preprocess_check1 :
    preprocess_text (("  Hello, WORLD!  visit https://x.com/a now ").data) =
      ("hello world visit now").data := by decide

theorem preprocess_check2 :
    preprocess_text (("<b>Big</b> www.site.org deal??").data) = ("big deal").data := by
  decide

/-! ### Lemmas about the normalisation stages -/

theorem toNat_ofNat_valid {m : Nat} (h : m.isValidChar) : (Char.ofNat m).toNat = m := by
  unfold Char.ofNat
  rw [dif_pos h]
  rcases h with h | h
  · simp [Char.ofNatAux, Char.toNat, UInt32.toNat]
  · simp [Char.ofNatAux, Char.toNat, UInt32.toNat]

/-- ASCII lowercasing is idempotent. -/
theorem toLower_idem (c : Char) : (c.toLower).toLower = c.toLower := by
  by_cases h : c.toNat ≥ 65 ∧ c.toNat ≤ 90
  · have hv : (c.toNat + 32).isValidChar := Or.inl (by omega)
    have h1 : c.toLower = Char.ofNat (c.toNat + 32) := by
      unfold Char.toLower; exact if_pos h
    rw [h1]
    unfold Char.toLower
    rw [toNat_ofNat_valid hv]
    exact if_neg (by omega)
  · have h1 : c.toLower = c := by unfold Char.toLower; exact if_neg h
    rw [h1, h1]

theorem map_toLower_id {l : Str} (h : ∀ c ∈ l, c.toLower = c) : l.map Char.toLower = l := by
  induction l with
  | nil => rfl
  | cons a t ih =>
    simp only [List.map_cons]
    rw [h a (List.mem_cons_self a t), ih (fun c hc => h c (List.mem_cons_of_mem a hc))]

theorem urlTail_sub {r s : Str} (h : urlTail r = some s) : ∀ c ∈ s, c ∈ r := by
  unfold urlTail at h
  match r with
  | [] => cases h
  | a :: t =>
    simp only at h
    split at h
    · cases h
      intro c hc
      exact List.IsSuffix.mem hc (List.dropWhile_suffix notSpace)
    · cases h

theorem urlTail_length {r s : Str} (h : urlTail r = some s) : s.length ≤ r.length := by
  unfold urlTail at h
  match r with
  | [] => cases h
  | a :: t =>
    simp only at h
    split at h
    · cases h
      exact (List.dropWhile_sublist _).length_le
    · cases h

theorem matchUrl_sub {l s : Str} (h : matchUrl l = some s) : ∀ c ∈ s, c ∈ l := by
  unfold matchUrl at h
  split at h
  · intro c hc
    have := urlTail_sub h c hc
    simp only [List.mem_cons]
    tauto
  · intro c hc
    have := urlTail_sub h c hc
    simp only [List.mem_cons]
    tauto
  · intro c hc
    have := urlTail_sub h c hc
    simp only [List.mem_cons]
    tauto
  · cases h

theorem matchUrl_mem {l s : Str} (h : matchUrl l = some s) : ':' ∈ l ∨ '.' ∈ l := by
  unfold matchUrl at h
  split at h
  · left; simp
  · left; simp
  · right; simp
  · cases h

theorem removeUrlsFuel_sub {f : Nat} {l : Str} : ∀ c ∈ removeUrlsFuel f l, c ∈ l := by
  induction f generalizing l with
  | zero => intro c hc; simp [removeUrlsFuel] at hc
  | succ f ih =>
    match l with
    | [] => intro c hc; cases hc
    | a :: t =>
      intro c hc
      simp only [removeUrlsFuel] at hc
      cases hm : matchUrl (a :: t) with
      | some r =>
        rw [hm] at hc
        exact matchUrl_sub hm c (ih c hc)
      | none =>
        rw [hm] at hc
        rcases List.mem_cons.mp hc with h1 | h1
        · exact h1 ▸ List.mem_cons_self a t
        · exact List.mem_cons_of_mem a (ih c h1)

theorem removeUrlsFuel_id {f : Nat} {l : Str} (hf : l.length ≤ f)
    (hc : ':' ∉ l) (hd : '.' ∉ l) : removeUrlsFuel f l = l := by
  induction f generalizing l with
  | zero =>
    match l with
    | [] => rfl
    | a :: t => simp at hf
  | succ f ih =>
    match l with
    | [] => rfl
    | a :: t =>
      have hm : matchUrl (a :: t) = none := by
        cases hmm : matchUrl (a :: t) with
        | none => rfl
        | some r =>
          rcases matchUrl_mem hmm with h | h
          · exact absurd h hc
          · exact absurd h hd
      simp only [removeUrlsFuel, hm]
      rw [ih (by simpa using Nat.le_of_succ_le_succ (by simpa using hf))
          (fun h => hc (List.mem_cons_of_mem a h))
          (fun h => hd (List.mem_cons_of_mem a h))]

theorem removeUrls_id {l : Str} (hc : ':' ∉ l) (hd : '.' ∉ l) : removeUrls l = l :=
  removeUrlsFuel_id (Nat.le_refl _) hc hd

theorem tagEnd_sub {l s : Str} (h : tagEnd l = some s) : ∀ c ∈ s, c ∈ l := by
  induction l with
  | nil => cases h
  | cons a t ih =>
    unfold tagEnd at h
    split at h
    · cases h
      intro c hc
      exact List.mem_cons_of_mem a hc
    · split at h
      · cases h
      · intro c hc
        exact List.mem_cons_of_mem a (ih h c hc)

theorem removeTagsFuel_sub {f : Nat} {l : Str} : ∀ c ∈ removeTagsFuel f l, c ∈ l := by
  induction f generalizing l with
  | zero => intro c hc; simp [removeTagsFuel] at hc
  | succ f ih =>
    match l with
    | [] => intro c hc; cases hc
    | a :: t =>
      intro c hc
      simp only [removeTagsFuel] at hc
      by_cases ha : a = '<'
      · rw [if_pos ha] at hc
        cases hm : tagEnd t with
        | some r =>
          rw [hm] at hc
          exact List.mem_cons_of_mem a (tagEnd_sub hm c (ih c hc))
        | none =>
          rw [hm] at hc
          rcases List.mem_cons.mp hc with h1 | h1
          · rw [h1, ← ha]; exact List.mem_cons_self a t
          · exact List.mem_cons_of_mem a (ih c h1)
      · rw [if_neg ha] at hc
        rcases List.mem_cons.mp hc with h1 | h1
        · exact h1 ▸ List.mem_cons_self a t
        · exact List.mem_cons_of_mem a (ih c h1)

theorem removeTagsFuel_id {f : Nat} {l : Str} (hf : l.length ≤ f)
    (hlt : '<' ∉ l) : removeTagsFuel f l = l := by
  induction f generalizing l with
  | zero =>
    match l with
    | [] => rfl
    | a :: t => simp at hf
  | succ f ih =>
    match l with
    | [] => rfl
    | a :: t =>
      have ha : ¬(a = '<') := fun h => hlt (h ▸ List.mem_cons_self a t)
      simp only [removeTagsFuel, if_neg ha]
      rw [ih (by simpa using Nat.le_of_succ_le_succ (by simpa using hf))
          (fun h => hlt (List.mem_cons_of_mem a h))]

theorem removeTags_id {l : Str} (hlt : '<' ∉ l) : removeTags l = l :=
  removeTagsFuel_id (Nat.le_refl _) hlt

/-! ### Shape of the collapsed and stripped output -/

/-- Every whitespace character of the list is a plain blank. -/
def spacesBlank (l : Str) : Prop := ∀ c ∈ l, isPySpace c = true → c = ' '

/-- No two adjacent whitespace characters. -/
def noTwoSp (l : Str) : Prop :=
  List.Chain' (fun a b => ¬(isPySpace a = true ∧ isPySpace b = true)) l

/-- The first character, if any, is not whitespace. -/
def headNotSpace : Str → Prop
  | [] => True
  | c :: _ => isPySpace c = false

/-- The last character, if any, is not whitespace. -/
def lastNotSpace (l : Str) : Prop := ∀ c ∈ l.getLast?, isPySpace c = false

theorem collapseAux_true_eq {l : Str} (h : headNotSpace l) :
    collapseAux true l = collapseAux false l := by
  match l with
  | [] => rfl
  | c :: t =>
    have hc : isPySpace c = false := h
    simp only [collapseAux, hc]
    simp

theorem mem_collapseAux {b : Bool} {l : Str} : ∀ c ∈ collapseAux b l, c ∈ l ∨ c = ' ' := by
  induction l generalizing b with
  | nil => intro c hc; cases b <;> cases hc
  | cons a t ih =>
    intro c hc
    by_cases hs : isPySpace a = true
    · cases b with
      | true =>
        simp only [collapseAux, hs, if_true] at hc
        rcases ih c hc with h | h
        · exact Or.inl (List.mem_cons_of_mem a h)
        · exact Or.inr h
      | false =>
        simp only [collapseAux, hs, if_true] at hc
        rcases List.mem_cons.mp hc with h | h
        · exact Or.inr h
        · rcases ih c h with h2 | h2
          · exact Or.inl (List.mem_cons_of_mem a h2)
          · exact Or.inr h2
    · have hs' : isPySpace a = false := by
        cases hval : isPySpace a
        · rfl
        · exact absurd hval hs
      cases b with
      | true =>
        simp only [collapseAux, hs', Bool.false_eq_true, if_false] at hc
        rcases List.mem_cons.mp hc with h | h
        · exact Or.inl (h ▸ List.mem_cons_self a t)
        · rcases ih c h with h2 | h2
          · exact Or.inl (List.mem_cons_of_mem a h2)
          · exact Or.inr h2
      | false =>
        simp only [collapseAux, hs', Bool.false_eq_true, if_false] at hc
        rcases List.mem_cons.mp hc with h | h
        · exact Or.inl (h ▸ List.mem_cons_self a t)
        · rcases ih c h with h2 | h2
          · exact Or.inl (List.mem_cons_of_mem a h2)
          · exact Or.inr h2

theorem collapse_spacesBlank {b : Bool} {l : Str} : spacesBlank (collapseAux b l) := by
  induction l generalizing b with
  | nil => intro c hc; cases b <;> cases hc
  | cons a t ih =>
    intro c hc hsp
    by_cases hs : isPySpace a = true
    · cases b with
      | true =>
        simp only [collapseAux, hs, if_true] at hc
        exact ih c hc hsp
      | false =>
        simp only [collapseAux, hs, if_true] at hc
        rcases List.mem_cons.mp hc with h | h
        · exact h
        · exact ih c h hsp
    · have hs' : isPySpace a = false := by
        cases hval : isPySpace a
        · rfl
        · exact absurd hval hs
      cases b with
      | true =>
        simp only [collapseAux, hs', Bool.false_eq_true, if_false] at hc
        rcases List.mem_cons.mp hc with h | h
        · rw [h] at hsp; rw [hs'] at hsp; cases hsp
        · exact ih c h hsp
      | false =>
        simp only [collapseAux, hs', Bool.false_eq_true, if_false] at hc
        rcases List.mem_cons.mp hc with h | h
        · rw [h] at hsp; rw [hs'] at hsp; cases hsp
        · exact ih c h hsp

theorem collapse_headNotSpace (l : Str) : headNotSpace (collapseAux true l) := by
  induction l with
  | nil => trivial
  | cons a t ih =>
    by_cases hs : isPySpace a = true
    · simp only [collapseAux, hs, if_true]
      exact ih
    · have hs' : isPySpace a = false := by
        cases hval : isPySpace a
        · rfl
        · exact absurd hval hs
      simp only [collapseAux, hs', Bool.false_eq_true, if_false]
      exact hs'

theorem collapse_noTwoSp {b : Bool} {l : Str} : noTwoSp (collapseAux b l) := by
  induction l generalizing b with
  | nil => cases b <;> exact List.chain'_nil
  | cons a t ih =>
    by_cases hs : isPySpace a = true
    · cases b with
      | true =>
        simp only [collapseAux, hs, if_true]
        exact ih
      | false =>
        simp only [collapseAux, hs, if_true]
        refine List.chain'_cons'.mpr ⟨?_, ih⟩
        intro y hy
        have hh := collapse_headNotSpace t
        match hcoll : collapseAux true t with
        | [] => rw [hcoll] at hy; cases hy
        | z :: zs =>
          rw [hcoll] at hy
          simp only [List.head?_cons, Option.mem_def, Option.some.injEq] at hy
          have hz : isPySpace z = false := by rw [hcoll] at hh; exact hh
          rw [hy] at hz
          intro hcontra
          rw [hz] at hcontra
          cases hcontra.2
    · have hs' : isPySpace a = false := by
        cases hval : isPySpace a
        · rfl
        · exact absurd hval hs
      have hgoal : noTwoSp (a :: collapseAux false t) := by
        refine List.chain'_cons'.mpr ⟨?_, ih⟩
        intro y hy hcontra
        rw [hs'] at hcontra
        cases hcontra.1
      cases b with
      | true =>
        simp only [collapseAux, hs', Bool.false_eq_true, if_false]
        exact hgoal
      | false =>
        simp only [collapseAux, hs', Bool.false_eq_true, if_false]
        exact hgoal

theorem dropWhile_headNotSpace (l : Str) : headNotSpace (l.dropWhile isPySpace) := by
  induction l with
  | nil => trivial
  | cons a t ih =>
    rw [List.dropWhile_cons]
    by_cases hs : isPySpace a = true
    · rw [if_pos hs]; exact ih
    · have hs' : isPySpace a = false := by
        cases hval : isPySpace a
        · rfl
        · exact absurd hval hs
      rw [hs']
      simp only [Bool.false_eq_true, if_false]
      exact hs'

theorem stripEnd_front (l : Str) : stripEnd l <+: l := by
  induction l with
  | nil => exact List.prefix_refl []
  | cons c t ih =>
    simp only [stripEnd]
    cases h : stripEnd t with
    | nil =>
      by_cases hs : isPySpace c = true
      · rw [if_pos hs]; exact List.nil_prefix
      · have hs' : isPySpace c = false := by
          cases hval : isPySpace c
          · rfl
          · exact absurd hval hs
        rw [hs']
        simp only [Bool.false_eq_true, if_false]
        exact List.cons_prefix_cons.mpr ⟨rfl, List.nil_prefix⟩
    | cons r rs =>
      exact List.cons_prefix_cons.mpr ⟨rfl, h ▸ ih⟩

theorem stripEnd_lastNotSpace (l : Str) : lastNotSpace (stripEnd l) := by
  induction l with
  | nil => intro x hx; cases hx
  | cons c t ih =>
    simp only [stripEnd]
    cases h : stripEnd t with
    | nil =>
      by_cases hs : isPySpace c = true
      · rw [if_pos hs]; intro x hx; cases hx
      · have hs' : isPySpace c = false := by
          cases hval : isPySpace c
          · rfl
          · exact absurd hval hs
        rw [hs']
        simp only [Bool.false_eq_true, if_false]
        intro x hx
        simp only [List.getLast?_singleton, Option.mem_def, Option.some.injEq] at hx
        rw [← hx]
        exact hs'
    | cons r rs =>
      intro x hx
      rw [List.getLast?_cons_cons] at hx
      apply ih
      rw [h]
      exact hx

theorem stripEnd_headNotSpace {l : Str} (h : headNotSpace l) :
    headNotSpace (stripEnd l) := by
  have hp := stripEnd_front l
  cases hse : stripEnd l with
  | nil => trivial
  | cons a t =>
    rw [hse] at hp
    match l, h with
    | [], _ => exact absurd (List.prefix_nil.mp hp) (by simp)
    | b :: m, h =>
      have hab : a = b := (List.cons_prefix_cons.mp hp).1
      show isPySpace a = false
      rw [hab]
      exact h

/-! ### Identity of each stage on already-normalised input -/

theorem removePunct_id {l : Str} (h : ∀ c ∈ l, isPunct c = false) : removePunct l = l := by
  unfold removePunct
  exact List.filter_eq_self.mpr (fun a ha => by rw [h a ha]; rfl)

theorem dropWhile_id {l : Str} (h : headNotSpace l) : l.dropWhile isPySpace = l := by
  cases l with
  | nil => rfl
  | cons c t =>
    have hc : isPySpace c = false := h
    rw [List.dropWhile_cons, hc]
    simp

theorem stripEnd_id {l : Str} (h : lastNotSpace l) : stripEnd l = l := by
  induction l with
  | nil => rfl
  | cons c t ih =>
    simp only [stripEnd]
    cases t with
    | nil =>
      have hc : isPySpace c = false := by
        apply h
        simp [List.getLast?_singleton]
      show (if isPySpace c = true then ([] : Str) else [c]) = [c]
      rw [hc]
      simp
    | cons d m =>
      have ht : lastNotSpace (d :: m) := by
        intro x hx
        apply h
        rw [List.getLast?_cons_cons]
        exact hx
      rw [ih ht]

theorem collapseAux_id {l : Str} (h1 : spacesBlank l) (h2 : noTwoSp l) :
    collapseAux false l = l := by
  induction l with
  | nil => rfl
  | cons c t ih =>
    have h1t : spacesBlank t := fun x hx => h1 x (List.mem_cons_of_mem c hx)
    have h2t : noTwoSp t := (List.chain'_cons'.mp h2).2
    by_cases hs : isPySpace c = true
    · have hc : c = ' ' := h1 c (List.mem_cons_self c t) hs
      simp only [collapseAux, hs, if_true]
      have hh : headNotSpace t := by
        cases t with
        | nil => trivial
        | cons d m =>
          have hr := (List.chain'_cons'.mp h2).1 d rfl
          show isPySpace d = false
          cases hval : isPySpace d
          · rfl
          · exact absurd ⟨hs, hval⟩ hr
      rw [collapseAux_true_eq hh, ih h1t h2t, hc]
    · have hs' : isPySpace c = false := by
        cases hval : isPySpace c
        · rfl
        · exact absurd hval hs
      simp only [collapseAux, hs', Bool.false_eq_true, if_false]
      rw [ih h1t h2t]

/-! ### Idempotence of `preprocess_text` (claim C8 machinery) -/

theorem preprocess_mem {s : Str} :
    ∀ c ∈ preprocess_text s, Char.toLower c = c ∧ isPunct c = false := by
  intro c hc
  unfold preprocess_text at hc
  by_cases hs : s = []
  · rw [if_pos hs] at hc; cases hc
  · rw [if_neg hs] at hc
    simp only [stripStr, collapseWs] at hc
    have h1 := List.IsPrefix.mem hc (stripEnd_front _)
    have h2 := List.IsSuffix.mem h1 (List.dropWhile_suffix isPySpace)
    rcases mem_collapseAux c h2 with h3 | h3
    · have h4 := List.mem_filter.mp h3
      have h5 := removeTagsFuel_sub c h4.1
      have h6 := removeUrlsFuel_sub c h5
      obtain ⟨a, _, rfl⟩ := List.mem_map.mp h6
      refine ⟨toLower_idem a, ?_⟩
      have := h4.2
      cases hval : isPunct a.toLower
      · rfl
      · rw [hval] at this; cases this
    · rw [h3]
      exact ⟨by decide, by decide⟩

theorem preprocess_shape {s : Str} :
    spacesBlank (preprocess_text s) ∧ noTwoSp (preprocess_text s) ∧
      headNotSpace (preprocess_text s) ∧ lastNotSpace (preprocess_text s) := by
  unfold preprocess_text
  by_cases hs : s = []
  · rw [if_pos hs]
    refine ⟨?_, ?_, ?_, ?_⟩
    · intro c hc; cases hc
    · exact List.chain'_nil
    · trivial
    · intro c hc; cases hc
  · rw [if_neg hs]
    simp only [stripStr, collapseWs]
    have hw1 : spacesBlank (collapseAux false (removePunct (removeTags (removeUrls (s.map Char.toLower))))) :=
      collapse_spacesBlank
    have hw2 : noTwoSp (collapseAux false (removePunct (removeTags (removeUrls (s.map Char.toLower))))) :=
      collapse_noTwoSp
    have hd3 := dropWhile_headNotSpace (collapseAux false (removePunct (removeTags (removeUrls (s.map Char.toLower)))))
    have hd1 : spacesBlank ((collapseAux false (removePunct (removeTags (removeUrls (s.map Char.toLower))))).dropWhile isPySpace) :=
      fun c hc => hw1 c (List.IsSuffix.mem hc (List.dropWhile_suffix isPySpace))
    have hd2 : noTwoSp ((collapseAux false (removePunct (removeTags (removeUrls (s.map Char.toLower))))).dropWhile isPySpace) :=
      List.Chain'.suffix hw2 (List.dropWhile_suffix isPySpace)
    refine ⟨fun c hc => hd1 c (List.IsPrefix.mem hc (stripEnd_front _)),
      List.Chain'.prefix hd2 (stripEnd_front _),
      stripEnd_headNotSpace hd3,
      stripEnd_lastNotSpace _⟩

theorem preprocess_fix {y : Str}
    (hchars : ∀ c ∈ y, Char.toLower c = c ∧ isPunct c = false)
    (h1 : spacesBlank y) (h2 : noTwoSp y) (h3 : headNotSpace y) (h4 : lastNotSpace y) :
    preprocess_text y = y := by
  by_cases hy : y = []
  · rw [hy]; rfl
  · unfold preprocess_text
    rw [if_neg hy]
    rw [map_toLower_id (fun c hc => (hchars c hc).1)]
    have hcolon : ':' ∉ y := fun hmem => absurd (hchars ':' hmem).2 (by decide)
    have hdot : '.' ∉ y := fun hmem => absurd (hchars '.' hmem).2 (by decide)
    have hlt : '<' ∉ y := fun hmem => absurd (hchars '<' hmem).2 (by decide)
    rw [removeUrls_id hcolon hdot, removeTags_id hlt,
      removePunct_id (fun c hc => (hchars c hc).2)]
    simp only [collapseWs, stripStr]
    rw [collapseAux_id h1 h2, dropWhile_id h3, stripEnd_id h4]

/-- C8: the text normaliser is idempotent: for every input string,
normalising twice equals normalising once. -/
theorem preprocess_text_idempotent (s : Str) :
    preprocess_text (preprocess_text s) = preprocess_text s := by
  obtain ⟨h1, h2, h3, h4⟩ := preprocess_shape (s := s)
  exact preprocess_fix (preprocess_mem (s := s)) h1 h2 h3 h4

/-! ### Opportunity scoring

Two scoring sites exist in the source:
* `CompetitorAuditor._calculate_opportunity` (src/modules/competitor_audit.py,
  lines 221-253), operating on a SERP-feature record, the top-10 ranking
  domain list, the configured competitor list and the own domain;
* the inline score of `OpportunityTracker.identify_weekly_opportunities`
  (src/modules/opportunity_tracker.py, lines 266-285), operating on two
  feature flags, the already-ranking flag and an optional trend value.
-/

/-- Python's string containment `needle in hay` restricted to a prefix test
at the head position. -/
def listPre : Str → Str → Bool
  | [], _ => true
  | _ :: _, [] => false
  | a :: as, b :: bs => a == b && listPre as bs

/-- Python's substring test `needle in hay`. -/
def strIn (n : Str) : Str → Bool
  | [] => listPre n []
  | c :: t => listPre n (c :: t) || strIn n t

/-- Python's exact membership test `x in xs` for a list of strings. -/
def strElem (x : Str) (xs : List Str) : Bool := xs.any (fun y => x == y)

/-- The SERP feature record built by `analyze_serp_features`
(src/modules/competitor_audit.py, lines 168-178). -/
structure SerpFeatures where
  featured_snippet : Bool
  people_also_ask : Bool
  knowledge_panel : Bool
  image_pack : Bool
  video_results : Bool
  local_pack : Bool
  shopping_results : Bool
  top_stories : Bool
deriving DecidableEq

/-- All-absent feature record. -/
def noFeatures : SerpFeatures :=
  ⟨false, false, false, false, false, false, false, false⟩

/-- Model of `CompetitorAuditor._calculate_opportunity`
(src/modules/competitor_audit.py, lines 221-253), statement by statement.
`domain` is `self.domain` and `competitors` is `self.competitors`.
Note the two different membership tests in the source: the local-pack
penalty uses exact list membership (`self.domain not in ranking_domains`),
the already-ranking penalty uses substring containment per entry
(`any(self.domain in domain for domain in ranking_domains)`), and the
competitor count counts ranking entries containing some competitor as a
substring. -/
def calculate_opportunity (domain : Str) (competitors : List Str)
    (features : SerpFeatures) (ranking_domains : List Str) : ℤ :=
  let score : ℤ := 50
  let score := if features.featured_snippet then score + 20 else score
  let score := if features.people_also_ask then score + 10 else score
  let score := if features.knowledge_panel then score - 15 else score
  let score := if features.local_pack && !(strElem domain ranking_domains) then
      score - 10 else score
  let competitor_count : ℤ :=
    ((ranking_domains.filter (fun d => competitors.any (fun comp => strIn comp d))).length : ℤ)
  let score := if 0 < competitor_count then score + 5 * competitor_count else score
  let score := if ranking_domains.any (fun d => strIn domain d) then score - 25 else score
  zmax 0 (zmin 100 score)

/-- Model of the inline opportunity score of
`OpportunityTracker.identify_weekly_opportunities`
(src/modules/opportunity_tracker.py, lines 266-285): base 50, +20 for a
featured snippet, +10 for people-also-ask, −30 if already ranking,
`+ min(30, trend_score / 10)` when trend data is present, then
`max(0, min(100, score))`. -/
def weekly_opportunity_score (featured_snippet people_also_ask : Bool)
    (already_ranking : Bool) (trend_value : Option ℚ) : ℚ :=
  let score : ℚ := 50
  let score := if featured_snippet then score + 20 else score
  let score := if people_also_ask then score + 10 else score
  let score := if already_ranking then score - 30 else score
  let score :=
    match trend_value with
    | some t => score + qmin 30 (t * mkRat 1 10)
    | none => score
  qmax 0 (qmin 100 score)

/-- Modelled from the spec (§4.6 `OpportunityScorer`): the single scoring
formula the specification states, with the own-domain ranking test read as
exact membership in the ranking set and the competitor term counting
distinct configured competitors present in the ranking set.  This
definition exists only to be compared against the two source scorers. -/
def spec_opportunity_score (featured_snippet people_also_ask knowledge_panel local_pack : Bool)
    (ranking_set : List Str) (competitors : List Str) (own_domain : Str)
    (trend_value : Option ℚ) : ℚ :=
  let s : ℚ := 50
    + (if featured_snippet then 20 else 0)
    + (if people_also_ask then 10 else 0)
    - (if knowledge_panel then 15 else 0)
    - (if local_pack && !(strElem own_domain ranking_set) then 10 else 0)
    + 5 * (((competitors.dedup).filter (fun c => strElem c ranking_set)).length : ℚ)
    - (if strElem own_domain ranking_set then 25 else 0)
    + (match trend_value with
       | some t => qmin 30 (t * mkRat 1 10)
       | none => 0)
  qmax 0 (qmin 100 s)

/-- Closed-form restatement of the competitor-audit scorer, used as the
corrected per-function formula. -/
def calc_opportunity_formula (domain : Str) (competitors : List Str)
    (features : SerpFeatures) (ranking_domains : List Str) : ℤ :=
  zmax 0 (zmin 100 (50
    + (if features.featured_snippet then 20 else 0)
    + (if features.people_also_ask then 10 else 0)
    - (if features.knowledge_panel then 15 else 0)
    - (if features.local_pack && !(strElem domain ranking_domains) then 10 else 0)
    + 5 * ((ranking_domains.filter (fun d => competitors.any (fun comp => strIn comp d))).length : ℤ)
    - (if ranking_domains.any (fun d => strIn domain d) then 25 else 0)))

/-- Closed-form restatement of the weekly-opportunity scorer, used as the
corrected per-function formula. -/
def weekly_score_formula (featured_snippet people_also_ask : Bool)
    (already_ranking : Bool) (trend_value : Option ℚ) : ℚ :=
  qmax 0 (qmin 100 (50
    + (if featured_snippet then 20 else 0)
    + (if people_also_ask then 10 else 0)
    - (if already_ranking then 30 else 0)
    + (match trend_value with
       | some t => qmin 30 (t * mkRat 1 10)
       | none => 0)))

theorem zclamp_bounds (s : ℤ) : 0 ≤ zmax 0 (zmin 100 s) ∧ zmax 0 (zmin 100 s) ≤ 100 := by
  unfold zmax zmin
  split_ifs <;> omega

theorem qclamp_bounds (s : ℚ) : 0 ≤ qmax 0 (qmin 100 s) ∧ qmax 0 (qmin 100 s) ≤ 100 := by
  unfold qmax qmin
  split_ifs <;> constructor <;> linarith

theorem zclamp_mono {a b : ℤ} (h : a ≤ b) : zmax 0 (zmin 100 a) ≤ zmax 0 (zmin 100 b) := by
  unfold zmax zmin
  split_ifs <;> omega

theorem qclamp_mono {a b : ℚ} (h : a ≤ b) : qmax 0 (qmin 100 a) ≤ qmax 0 (qmin 100 b) := by
  unfold qmax qmin
  split_ifs <;> linarith

theorem calculate_opportunity_closed (domain : Str) (competitors : List Str)
    (features : SerpFeatures) (ranking_domains : List Str) :
    calculate_opportunity domain competitors features ranking_domains =
      calc_opportunity_formula domain competitors features ranking_domains := by
  unfold calculate_opportunity calc_opportunity_formula
  dsimp only
  refine congrArg (fun x => zmax 0 (zmin 100 x)) ?_
  split_ifs <;> omega

theorem weekly_opportunity_score_closed (fs paa ar : Bool) (tr : Option ℚ) :
    weekly_opportunity_score fs paa ar tr = weekly_score_formula fs paa ar tr := by
  unfold weekly_opportunity_score weekly_score_formula
  cases tr with
  | none =>
    dsimp only
    refine congrArg (fun x => qmax 0 (qmin 100 x)) ?_
    split_ifs <;> ring
  | some t =>
    dsimp only
    refine congrArg (fun x => qmax 0 (qmin 100 x)) ?_
    split_ifs <;> ring

/-- Own domain used in concrete checks. -/
def domMe : Str := ("me.com").data

/-- Competitor domain used in concrete checks. -/
def domComp : Str := ("comp.com").data

/-- C1 counterexample: the single spec formula disagrees with both source
scorers.  With no SERP features, competitors `["comp.com"]` and ranking
list `["comp.com", "comp.com"]`, the audit scorer counts ranking entries
(two) rather than distinct competitors (one): 60 versus the formula's 55.
With the own domain already ranking and nothing else, the weekly scorer
subtracts 30, not the formula's 25: 20 versus 25. -/
theorem opportunity_score_formula_cex :
    calculate_opportunity domMe [domComp] noFeatures [domComp, domComp] = 60 ∧
    spec_opportunity_score false false false false [domComp, domComp] [domComp] domMe none = 55 ∧
    weekly_opportunity_score false false true none = 20 ∧
    spec_opportunity_score false false false false [domMe] [] domMe none = 25 := by
  refine ⟨by decide, ?_, ?_, ?_⟩
  · unfold spec_opportunity_score
    dsimp only
    rw [show strElem domMe [domComp, domComp] = false from by decide]
    rw [show (([domComp].dedup).filter (fun c => strElem c [domComp, domComp])).length = 1
      from by decide]
    norm_num [qmax, qmin]
  · unfold weekly_opportunity_score
    dsimp only
    norm_num [qmax, qmin]
  · unfold spec_opportunity_score
    dsimp only
    rw [show strElem domMe [domMe] = true from by decide]
    rw [show ((([] : List Str).dedup).filter (fun c => strElem c [domMe])).length = 0
      from by decide]
    norm_num [qmax, qmin]

/-- C1 (amended): each scoring site satisfies its own closed-form formula.
The competitor-audit scorer equals base 50, +20 featured snippet, +10
people-also-ask, −15 knowledge panel, −10 if local pack present and the
own domain is not an exact member of the ranking list, +5 per ranking
entry containing some competitor as substring, −25 if some ranking entry
contains the own domain as substring, clamped to [0,100]; it has no trend
term.  The weekly-opportunity scorer equals base 50, +20 featured snippet,
+10 people-also-ask, −30 if already ranking, + min(30, trend/10) when a
trend value is supplied, clamped to [0,100]. -/
theorem opportunity_score_amended :
    (∀ (domain : Str) (competitors : List Str) (features : SerpFeatures)
      (ranking_domains : List Str),
      calculate_opportunity domain competitors features ranking_domains =
        calc_opportunity_formula domain competitors features ranking_domains) ∧
    (∀ (fs paa ar : Bool) (tr : Option ℚ),
      weekly_opportunity_score fs paa ar tr = weekly_score_formula fs paa ar tr) :=
  ⟨calculate_opportunity_closed, weekly_opportunity_score_closed⟩

/-- C2: both opportunity scorers stay within [0, 100] for all inputs
(feature flags, arbitrary ranking lists and competitor lists, arbitrary —
including negative or huge — trend values); being total functions, the
computations never raise. -/
theorem opportunity_score_bounded :
    (∀ (domain : Str) (competitors : List Str) (features : SerpFeatures)
      (ranking_domains : List Str),
      0 ≤ calculate_opportunity domain competitors features ranking_domains ∧
        calculate_opportunity domain competitors features ranking_domains ≤ 100) ∧
    (∀ (fs paa ar : Bool) (tr : Option ℚ),
      0 ≤ weekly_opportunity_score fs paa ar tr ∧
        weekly_opportunity_score fs paa ar tr ≤ 100) := by
  constructor
  · intro d c f R
    rw [calculate_opportunity_closed]
    exact zclamp_bounds _
  · intro fs paa ar tr
    rw [weekly_opportunity_score_closed]
    exact qclamp_bounds _

/-- C7: monotonicity of the opportunity score in the stated directions,
for both scoring sites.  For the weekly scorer, featured-snippet present
never decreases the score and already-ranking never increases it, all
other inputs fixed.  For the audit scorer, featured-snippet present never
decreases the score; for the already-ranking direction the flag is derived
from the ranking list, so monotonicity is stated for any two ranking lists
that agree on the competitor count and on exact own-domain membership but
differ in the substring already-ranking test. -/
theorem opportunity_score_monotone :
    (∀ (paa ar : Bool) (tr : Option ℚ),
      weekly_opportunity_score false paa ar tr ≤ weekly_opportunity_score true paa ar tr) ∧
    (∀ (fs paa : Bool) (tr : Option ℚ),
      weekly_opportunity_score fs paa true tr ≤ weekly_opportunity_score fs paa false tr) ∧
    (∀ (domain : Str) (competitors : List Str) (paa kp ip vr lp sr ts : Bool)
      (R : List Str),
      calculate_opportunity domain competitors ⟨false, paa, kp, ip, vr, lp, sr, ts⟩ R ≤
        calculate_opportunity domain competitors ⟨true, paa, kp, ip, vr, lp, sr, ts⟩ R) ∧
    (∀ (domain : Str) (competitors : List Str) (features : SerpFeatures)
      (R R' : List Str),
      (R.filter (fun d => competitors.any (fun comp => strIn comp d))).length =
        (R'.filter (fun d => competitors.any (fun comp => strIn comp d))).length →
      strElem domain R = strElem domain R' →
      R.any (fun d => strIn domain d) = true →
      R'.any (fun d => strIn domain d) = false →
      calculate_opportunity domain competitors features R ≤
        calculate_opportunity domain competitors features R') := by
  refine ⟨?_, ?_, ?_, ?_⟩
  · intro paa ar tr
    rw [weekly_opportunity_score_closed, weekly_opportunity_score_closed]
    unfold weekly_score_formula
    apply qclamp_mono
    cases tr <;> dsimp only <;> split_ifs <;> first | linarith | simp_all
  · intro fs paa tr
    rw [weekly_opportunity_score_closed, weekly_opportunity_score_closed]
    unfold weekly_score_formula
    apply qclamp_mono
    cases tr <;> dsimp only <;> split_ifs <;> first | linarith | simp_all
  · intro domain competitors paa kp ip vr lp sr ts R
    rw [calculate_opportunity_closed, calculate_opportunity_closed]
    unfold calc_opportunity_formula
    apply zclamp_mono
    dsimp only
    split_ifs <;> first | omega | simp_all
  · intro domain competitors features R R' h1 h2 h3 h4
    rw [calculate_opportunity_closed, calculate_opportunity_closed]
    unfold calc_opportunity_formula
    apply zclamp_mono
    rw [h1, h2, h3, h4]
    split_ifs <;> first | omega | simp_all

/-- Witness for C7: concrete ranking lists discharging the hypotheses of
the audit-scorer already-ranking direction. -/
theorem opportunity_score_monotone_witness :
    calculate_opportunity domMe [] noFeatures [("www.me.com").data] ≤
      calculate_opportunity domMe [] noFeatures [("other.org").data] :=
  opportunity_score_monotone.2.2.2 domMe [] noFeatures
    [("www.me.com").data] [("other.org").data]
    (by decide) (by decide) (by decide) (by decide)

/-! ### Keyword clustering (src/modules/keyword_clustering.py)

`KeywordClusterer.cluster_keywords` and its helpers `_detect_intent`,
`_assign_user_profile`, plus `get_top_keywords_by_cluster`.  spaCy (used
for the optional linguistic fallbacks) is modelled as an optional oracle
providing tokenisation and document similarity; the embedding model /
TF-IDF vectoriser and the three clustering backends are oracles in
`ClusterEnv`. -/

/-- The spaCy model `self.nlp`, when loaded: tokenisation of a text and
document similarity between two texts. -/
structure NlpModel where
  tokens : Str → List Str
  sim : Str → Str → ℚ

/-- The intent marker table of `_detect_intent` (lines 94-99), in Python
dict insertion order. -/
def intentsTable : List (Str × List Str) :=
  [(("informational").data,
    [("what").data, ("how").data, ("why").data, ("guide").data,
     ("tutorial").data, ("tips").data, ("learn").data]),
   (("navigational").data,
    [("login").data, ("sign in").data, ("website").data, ("official").data,
     ("download").data]),
   (("commercial").data,
    [("best").data, ("top").data, ("review").data, ("compare").data,
     ("vs").data, ("versus").data]),
   (("transactional").data,
    [("buy").data, ("price").data, ("deal").data, ("discount").data,
     ("purchase").data, ("free").data, ("trial").data])]

/-- First intent (in table order) with a marker occurring as a substring
of the lowered keyword. -/
def findIntent : List (Str × List Str) → Str → Option Str
  | [], _ => none
  | (intent, markers) :: rest, kl =>
    if markers.any (fun m => strIn m kl) then some intent else findIntent rest kl

/-- Question words of the spaCy fallback in `_detect_intent` (line 112). -/
def questionWords : List Str :=
  [("what").data, ("how").data, ("why").data, ("when").data,
   ("where").data, ("who").data]

/-- Model of `KeywordClusterer._detect_intent` (lines 92-116): marker
scan in dict order, then the spaCy question-word fallback, defaulting to
informational.  (The spaCy branch can only return "informational", which
is also the default.) -/
def detect_intent (nlp : Option NlpModel) (keyword : Str) : Str :=
  let kl := keyword.map Char.toLower
  match findIntent intentsTable kl with
  | some intent => intent
  | none =>
    match nlp with
    | some m =>
      if (m.tokens kl).any (fun tok => strElem tok questionWords)
      then ("informational").data
      else ("informational").data
    | none => ("informational").data

/-- The profile marker table of `_assign_user_profile` (lines 126-131). -/
def profileKeywordsTable : List (Str × List Str) :=
  [(("recruiter").data,
    [("recruiter").data, ("recruiting").data, ("talent sourcing").data,
     ("headhunter").data, ("talent acquisition").data]),
   (("talent_acquisition").data,
    [("talent acquisition").data, ("hiring manager").data,
     ("recruitment strategy").data, ("talent pipeline").data]),
   (("hr_manager").data,
    [("hr").data, ("human resources").data, ("people operations").data,
     ("employee").data, ("workforce").data]),
   (("candidate").data,
    [("job seeker").data, ("candidate").data, ("job application").data,
     ("interview").data, ("resume").data, ("cv").data])]

/-- `sum(marker in keyword_lower for marker in markers)`: the number of
markers occurring in the keyword, as a score. -/
def countMarkers (markers : List Str) (kl : Str) : ℚ :=
  ((markers.filter (fun m => strIn m kl)).length : ℚ)

/-- `max(values, default=0)`. -/
def maxValues : List (Str × ℚ) → ℚ
  | [] => 0
  | p :: t => t.foldl (fun acc q => qmax acc q.2) p.2

/-- `max([...], default=0)` over similarities of the keyword to each
marker (the spaCy fallback of `_assign_user_profile`, line 143). -/
def maxSimList (m : NlpModel) (markers : List Str) (kl : Str) : ℚ :=
  match markers.map (fun marker => m.sim kl marker) with
  | [] => 0
  | v :: vs => vs.foldl qmax v

/-- `max(profile_scores.items(), key=lambda x: x[1])`: Python's `max`
keeps the first maximal entry on ties. -/
def maxPair (p : Str × ℚ) : List (Str × ℚ) → Str × ℚ
  | [] => p
  | q :: t => maxPair (if p.2 < q.2 then q else p) t

/-- Model of `KeywordClusterer._assign_user_profile` (lines 118-152).
Returns `none` (Python `None`) when the configured profile set is empty
(`if not self.user_profiles`), else scores the configured known profiles
by marker counts, optionally rescoring by spaCy similarity when all
counts are zero and spaCy is loaded, and returns the best profile if its
score exceeds 0.3, else "general". -/
def assign_user_profile (nlp : Option NlpModel) (user_profiles : List Str)
    (keyword : Str) : Option Str :=
  if user_profiles = [] then none
  else
    let kl := keyword.map Char.toLower
    let configured := profileKeywordsTable.filter (fun p => strElem p.1 user_profiles)
    let profile_scores := configured.map (fun p => (p.1, countMarkers p.2 kl))
    let profile_scores :=
      if maxValues profile_scores = 0 ∧ nlp.isSome then
        match nlp with
        | some m => configured.map (fun p => (p.1, maxSimList m p.2 kl))
        | none => profile_scores
      else profile_scores
    match profile_scores with
    | [] => some (("general").data)
    | p :: t =>
      let best := maxPair p t
      if mkRat 3 10 < best.2 then some best.1 else some (("general").data)

/-- An input row of the keywords DataFrame (columns of the test fixture
and of `fetch_keywords`: keyword, volume, cpc, competition). -/
structure KwRow where
  keyword : Str
  volume : ℤ
  cpc : ℚ
  competition : ℚ
deriving DecidableEq

/-- A row of the DataFrame after `cluster_keywords` added the
processed_keyword, cluster, intent and user_profile columns, before the
cluster_label column. -/
structure PartialRow where
  keyword : Str
  volume : ℤ
  cpc : ℚ
  competition : ℚ
  processed_keyword : Str
  cluster : ℤ
  intent : Str
  user_profile : Option Str
deriving DecidableEq

/-- A fully clustered row (all five added columns present). -/
structure ClusteredRow where
  keyword : Str
  volume : ℤ
  cpc : ℚ
  competition : ℚ
  processed_keyword : Str
  cluster : ℤ
  intent : Str
  user_profile : Option Str
  cluster_label : Str
deriving DecidableEq

/-- The three selectable clustering methods of `cluster_keywords`. -/
inductive ClusterMethod
  | kmeans
  | dbscan
  | graph
deriving DecidableEq

/-- External collaborators of `cluster_keywords`, as oracles.  The
embedding backend (`_create_embeddings`: sentence-transformers or the
TF-IDF fallback) and sklearn's `fit_predict` return one item per input
when they do not raise — that library contract is carried in the type.
`graphCommunities` stands for the cosine-similarity graph construction
plus `greedy_modularity_communities` and yields the list of communities
(index sets over the input positions).  `rng` models
`np.random.randint` draws. -/
structure ClusterEnv (E : Type) where
  nlp : Option NlpModel
  createEmbeddings : (texts : List Str) → Except Unit {v : List E // v.length = texts.length}
  kmeansFit : (k : Nat) → (emb : List E) → Except Unit {l : List ℤ // l.length = emb.length}
  dbscanFit : (emb : List E) → Except Unit {l : List ℤ // l.length = emb.length}
  graphCommunities : (emb : List E) → Except Unit (List (List Nat))
  rng : Nat → Nat

/-- Model of `np.random.randint(0, k, size=n)`. -/
def randClusters (rng : Nat → Nat) (k n : Nat) : List ℤ :=
  (List.range n).map (fun i => ((rng i % k : Nat) : ℤ))

/-- Translation of the `graph` branch's label assignment (lines 229-232):
`clusters = np.zeros(n)` then, community by community, every member node
is overwritten with the community index — so the last containing
community wins and nodes in no community keep 0.  (networkx communities
partition `0..n-1`; out-of-range nodes cannot occur.) -/
def lastCommunityOf (communities : List (List Nat)) (node : Nat) : ℤ :=
  (communities.foldl
    (fun (acc : ℤ × ℤ) comm =>
      (if comm.contains node then acc.2 else acc.1, acc.2 + 1))
    (0, 0)).1

/-- Cluster vector of the `graph` branch. -/
def communitiesToClusters (n : Nat) (communities : List (List Nat)) : List ℤ :=
  (List.range n).map (fun node => lastCommunityOf communities node)

/-- Occurrences of a string in a list. -/
def countOcc (x : Str) (l : List Str) : Nat := (l.filter (fun y => x == y)).length

/-- Distinct values in first-appearance order (pandas `unique`). -/
def uniqueFirstStr (seen : List Str) : List Str → List Str
  | [] => []
  | x :: xs =>
    if strElem x seen then uniqueFirstStr seen xs
    else x :: uniqueFirstStr (x :: seen) xs

/-- Distinct cluster ids in first-appearance order (pandas `unique`). -/
def uniqueFirstInt (seen : List ℤ) : List ℤ → List ℤ
  | [] => []
  | x :: xs =>
    if seen.contains x then uniqueFirstInt seen xs
    else x :: uniqueFirstInt (x :: seen) xs

/-- Code-point lexicographic order on strings (Python string `<`). -/
def strLt : Str → Str → Bool
  | [], [] => false
  | [], _ :: _ => true
  | _ :: _, [] => false
  | a :: as, b :: bs =>
    if a.toNat < b.toNat then true
    else if b.toNat < a.toNat then false
    else strLt as bs

/-- pandas `Series.mode()[0]` on a series of strings: the most frequent
value; `mode()` returns ties sorted ascending, so the smallest tied value
is taken; an empty value list yields `none` (in pandas, `[0]` on the
empty mode series raises `KeyError`). -/
def seriesModeHead (vals : List Str) : Option Str :=
  match uniqueFirstStr [] vals with
  | [] => none
  | d :: ds =>
    some (ds.foldl
      (fun best x =>
        if countOcc best vals < countOcc x vals then x
        else if countOcc x vals < countOcc best vals then best
        else if strLt x best then x else best)
      d)

/-- Python `str.split()`: words separated by whitespace runs, no empty
words.  Fuel-structured (fuel = input length suffices: every step
consumes at least one character). -/
def splitWsFuel : Nat → Str → List Str
  | 0, _ => []
  | _, [] => []
  | fuel + 1, c :: cs =>
    if isPySpace c then splitWsFuel fuel cs
    else ((c :: cs).takeWhile notSpace) :: splitWsFuel fuel ((c :: cs).dropWhile notSpace)

/-- Python `str.split()`. -/
def splitWs (l : Str) : List Str := splitWsFuel l.length l

/-- Python `' '.join(strings)`. -/
def joinSpace : List Str → Str
  | [] => []
  | [x] => x
  | x :: xs => x ++ (' ' :: joinSpace xs)

/-- `pd.Series(all_words).value_counts().head(3).index.tolist()`: the
three most frequent words, most frequent first.  pandas leaves the order
of equal-count values unspecified; the model uses first-appearance order
(a stable sort over the distinct words). -/
def topWords (words : List Str) : List Str :=
  (List.insertionSort
    (fun a b : Str => countOcc b words ≤ countOcc a words)
    (uniqueFirstStr [] words)).take 3

/-- Label generation for one cluster id (lines 246-268): "Unclustered"
for the DBSCAN noise id −1; the keyword itself for a singleton cluster;
otherwise the three most common words plus the modal intent and modal
user profile.  The user_profile mode is taken over the non-null values
(pandas drops nulls); if they are all null the Python `.mode()[0]`
raises `KeyError`, modelled as an error. -/
def clusterLabelFor (rows : List PartialRow) (cid : ℤ) : Except Unit Str :=
  if cid = -1 then .ok (("Unclustered").data)
  else
    let members := rows.filter (fun r => r.cluster == cid)
    match members.map (fun r => r.keyword) with
    | [kw] => .ok kw
    | kws =>
      match seriesModeHead (members.map (fun r => r.intent)) with
      | none => .error ()
      | some cluster_intent =>
        match seriesModeHead ((members.map (fun r => r.user_profile)).filterMap id) with
        | none => .error ()
        | some cluster_profile =>
          let all_words := splitWs ((joinSpace kws).map Char.toLower)
          .ok (joinSpace (topWords all_words) ++ (" (").data ++ cluster_intent
            ++ (", ").data ++ cluster_profile ++ (")").data)

/-- The cluster-label map over the distinct cluster ids, built in order;
the first failing id aborts (the Python loop raises there). -/
def labelsFor (rows : List PartialRow) : List ℤ → Except Unit (List (ℤ × Str))
  | [] => .ok []
  | cid :: rest =>
    match clusterLabelFor rows cid with
    | .error e => .error e
    | .ok lab =>
      match labelsFor rows rest with
      | .error e => .error e
      | .ok t => .ok ((cid, lab) :: t)

/-- Lookup in the label map (`Series.map(cluster_labels)`; every row's id
is present, the default is never reached). -/
def lookupInt (cid : ℤ) : List (ℤ × Str) → Str
  | [] => []
  | (k, v) :: t => if k == cid then v else lookupInt cid t

/-- One row of the enriched DataFrame, positionally: the original row,
the processed keyword, the positional cluster id, intent and user
profile. -/
def buildPartialRows (nlp : Option NlpModel) (user_profiles : List Str) :
    List KwRow → List ℤ → List PartialRow
  | [], _ => []
  | _, [] => []
  | r :: rs, c :: cs =>
    { keyword := r.keyword, volume := r.volume, cpc := r.cpc,
      competition := r.competition,
      processed_keyword := preprocess_text r.keyword, cluster := c,
      intent := detect_intent nlp r.keyword,
      user_profile := assign_user_profile nlp user_profiles r.keyword } ::
      buildPartialRows nlp user_profiles rs cs

/-- Attach a cluster label to a row. -/
def finalizeRow (r : PartialRow) (lab : Str) : ClusteredRow :=
  { keyword := r.keyword, volume := r.volume, cpc := r.cpc,
    competition := r.competition, processed_keyword := r.processed_keyword,
    cluster := r.cluster, intent := r.intent, user_profile := r.user_profile,
    cluster_label := lab }

/-- The common tail of `cluster_keywords` after a cluster vector was
obtained (lines 237-272): build the enriched rows, generate labels per
distinct cluster id, and map them onto the rows. -/
def finishClustering (nlp : Option NlpModel) (user_profiles : List Str)
    (krows : List KwRow) (clusters : List ℤ) : Except Unit (List ClusteredRow) :=
  let baseRows := buildPartialRows nlp user_profiles krows clusters
  match labelsFor baseRows (uniqueFirstInt [] (baseRows.map (fun r => r.cluster))) with
  | .error e => .error e
  | .ok labmap =>
    .ok (baseRows.map (fun r => finalizeRow r (lookupInt r.cluster labmap)))

/-- Integer rendered as Python renders it in `f"Cluster {x}"`. -/
def intToStr (x : ℤ) : Str := (toString x).data

/-- The mock-clustering fallback taken when `_create_embeddings` raises
(lines 176-183): random clusters in `[0, 5)`, intent and profile as
usual, labels `"Cluster {x}"`. -/
def buildFallbackRows (nlp : Option NlpModel) (user_profiles : List Str) :
    List KwRow → List ℤ → List ClusteredRow
  | [], _ => []
  | _, [] => []
  | r :: rs, c :: cs =>
    { keyword := r.keyword, volume := r.volume, cpc := r.cpc,
      competition := r.competition,
      processed_keyword := preprocess_text r.keyword, cluster := c,
      intent := detect_intent nlp r.keyword,
      user_profile := assign_user_profile nlp user_profiles r.keyword,
      cluster_label := ("Cluster ").data ++ intToStr c } ::
      buildFallbackRows nlp user_profiles rs cs

/-- Model of `KeywordClusterer.cluster_keywords` (lines 154-272).
An empty DataFrame is returned unchanged.  Otherwise keywords are
preprocessed and embedded; if embedding raises, the mock-clustering
fallback is returned.  Else the chosen method produces a cluster vector —
each `fit_predict` failure falls back to random clusters
(`np.random.randint(0, n_clusters, ...)` itself raises when the kmeans
hint is 0, modelled as an error) — and the common tail attaches intent,
profile and labels. -/
def cluster_keywords {E : Type} (env : ClusterEnv E) (user_profiles : List Str)
    (keywords_df : List KwRow) (n_clusters : Option Nat) (method : ClusterMethod) :
    Except Unit (List ClusteredRow) :=
  if keywords_df = [] then .ok []
  else
    let processed := keywords_df.map (fun r => preprocess_text r.keyword)
    match env.createEmbeddings processed with
    | .error _ =>
      .ok (buildFallbackRows env.nlp user_profiles keywords_df
        (randClusters env.rng 5 keywords_df.length))
    | .ok embeddings =>
      let clustersE : Except Unit (List ℤ) :=
        match method with
        | .kmeans =>
          let k := match n_clusters with
            | some k => k
            | none => min (max 3 (keywords_df.length / 10)) 10
          match env.kmeansFit k embeddings.val with
          | .ok l => .ok l.val
          | .error _ =>
            if k = 0 then .error ()
            else .ok (randClusters env.rng k keywords_df.length)
        | .dbscan =>
          match env.dbscanFit embeddings.val with
          | .ok l => .ok l.val
          | .error _ => .ok (randClusters env.rng 5 keywords_df.length)
        | .graph =>
          match env.graphCommunities embeddings.val with
          | .ok comms => .ok (communitiesToClusters keywords_df.length comms)
          | .error _ => .ok (randClusters env.rng 5 keywords_df.length)
      match clustersE with
      | .error e => .error e
      | .ok clusters => finishClustering env.nlp user_profiles keywords_df clusters

/-- A concrete oracle environment in which every external collaborator
succeeds: trivial embeddings, all points in cluster 0. -/
def testEnv : ClusterEnv Unit where
  nlp := none
  createEmbeddings := fun texts => .ok ⟨texts.map (fun _ => ()), by simp⟩
  kmeansFit := fun _ emb => .ok ⟨emb.map (fun _ => 0), by simp⟩
  dbscanFit := fun emb => .ok ⟨emb.map (fun _ => 0), by simp⟩
  graphCommunities := fun _ => .ok []
  rng := fun _ => 0

/-- The six-keyword batch of the repository's own test
(src/tests/test_keyword_clustering.py, lines 46-52). -/
def testRows : List KwRow :=
  [⟨("recruitment software").data, 1000, mkRat 5 2, mkRat 4 5⟩,
   ⟨("hiring software").data, 800, 2, mkRat 7 10⟩,
   ⟨("applicant tracking").data, 600, mkRat 9 5, mkRat 3 5⟩,
   ⟨("recruitment CRM").data, 500, mkRat 3 2, mkRat 1 2⟩,
   ⟨("talent acquisition platform").data, 400, mkRat 6 5, mkRat 2 5⟩,
   ⟨("hiring process").data, 300, 1, mkRat 3 10⟩]

/-- The environment in which the KMeans backend raises. -/
def failEnv : ClusterEnv Unit :=
  { testEnv with kmeansFit := fun _ _ => .error () }

/-- C3 (code-bug evidence): on the repository's own test fixture (six
keywords) with the default configuration `user_profiles=None` and KMeans,
`cluster_keywords` raises instead of returning one assignment per
keyword: label generation evaluates `.mode()[0]` on the all-null
user_profile column, and pandas' mode of an all-null series is the empty
series, so `[0]` raises `KeyError`. -/
theorem cluster_keywords_profile_mode_crash :
    cluster_keywords testEnv [] testRows (some 2) ClusterMethod.kmeans = .error () := rfl

/-- C4 counterexample: when the clustering backend raises and the profile
set is empty (the constructor default), the random fallback clusters are
computed but the subsequent label generation still raises, so the caller
receives an exception rather than a complete fallback assignment set. -/
theorem cluster_keywords_fallback_cex :
    cluster_keywords failEnv [] testRows (some 2) ClusterMethod.kmeans = .error () := rfl

/-! ### Completeness lemmas for `cluster_keywords` -/

theorem assign_user_profile_isSome (nlp : Option NlpModel) (ps : List Str) (kw : Str)
    (hp : ps ≠ []) : (assign_user_profile nlp ps kw).isSome = true := by
  unfold assign_user_profile
  rw [if_neg hp]
  dsimp only
  split
  · rfl
  · split_ifs <;> rfl

theorem buildPartialRows_proj (nlp : Option NlpModel) (ps : List Str) :
    ∀ (rs : List KwRow) (cs : List ℤ), cs.length = rs.length →
      (buildPartialRows nlp ps rs cs).map (fun r => r.keyword) =
          rs.map (fun r => r.keyword) ∧
        (buildPartialRows nlp ps rs cs).map (fun r => r.volume) =
          rs.map (fun r => r.volume) ∧
        (buildPartialRows nlp ps rs cs).map (fun r => r.cpc) =
          rs.map (fun r => r.cpc) ∧
        (buildPartialRows nlp ps rs cs).map (fun r => r.competition) =
          rs.map (fun r => r.competition) := by
  intro rs
  induction rs with
  | nil => intro cs _; simp [buildPartialRows]
  | cons r rt ih =>
    intro cs hlen
    cases cs with
    | nil => simp at hlen
    | cons c ct =>
      have hlen' : ct.length = rt.length := by simpa using hlen
      obtain ⟨h1, h2, h3, h4⟩ := ih ct hlen'
      simp only [buildPartialRows, List.map_cons]
      exact ⟨by rw [h1], by rw [h2], by rw [h3], by rw [h4]⟩

theorem buildPartialRows_profile (nlp : Option NlpModel) (ps : List Str) (hp : ps ≠ []) :
    ∀ (rs : List KwRow) (cs : List ℤ) (r : PartialRow),
      r ∈ buildPartialRows nlp ps rs cs → r.user_profile.isSome = true := by
  intro rs
  induction rs with
  | nil => intro cs r hr; simp [buildPartialRows] at hr
  | cons a rt ih =>
    intro cs r hr
    cases cs with
    | nil => simp [buildPartialRows] at hr
    | cons c ct =>
      rcases List.mem_cons.mp hr with h | h
      · rw [h]
        exact assign_user_profile_isSome nlp ps a.keyword hp
      · exact ih ct r h

theorem uniqueFirstInt_sub :
    ∀ (seen l : List ℤ) (cid : ℤ), cid ∈ uniqueFirstInt seen l → cid ∈ l := by
  intro seen l
  induction l generalizing seen with
  | nil => intro cid h; simp [uniqueFirstInt] at h
  | cons x xs ih =>
    intro cid h
    unfold uniqueFirstInt at h
    split at h
    · exact List.mem_cons_of_mem x (ih seen cid h)
    · rcases List.mem_cons.mp h with h1 | h1
      · exact h1 ▸ List.mem_cons_self x xs
      · exact List.mem_cons_of_mem x (ih (x :: seen) cid h1)

theorem members_ne_nil {rows : List PartialRow} {cid : ℤ}
    (h : cid ∈ rows.map (fun r => r.cluster)) :
    rows.filter (fun r => r.cluster == cid) ≠ [] := by
  obtain ⟨r, hr, hc⟩ := List.mem_map.mp h
  intro hnil
  have := List.filter_eq_nil_iff.mp hnil r hr
  simp [hc] at this

theorem seriesModeHead_some {vals : List Str} (h : vals ≠ []) :
    ∃ s, seriesModeHead vals = some s := by
  match vals with
  | [] => exact absurd rfl h
  | v :: vs =>
    unfold seriesModeHead uniqueFirstStr
    rw [show strElem v [] = false from rfl]
    simp only [Bool.false_eq_true, if_false]
    exact ⟨_, rfl⟩

theorem filterMap_profiles_ne_nil {rows : List PartialRow}
    (hprof : ∀ r ∈ rows, r.user_profile.isSome = true) (h : rows ≠ []) :
    (rows.map (fun r => r.user_profile)).filterMap id ≠ [] := by
  match rows with
  | [] => exact absurd rfl h
  | r :: rt =>
    have hs := hprof r (List.mem_cons_self r rt)
    obtain ⟨v, hv⟩ := Option.isSome_iff_exists.mp hs
    simp only [List.map_cons, List.filterMap_cons, id_eq, hv]
    intro hcontra
    cases hcontra

theorem clusterLabelFor_ok {rows : List PartialRow} {cid : ℤ}
    (hm : rows.filter (fun r => r.cluster == cid) ≠ [])
    (hprof : ∀ r ∈ rows, r.user_profile.isSome = true) :
    ∃ s, clusterLabelFor rows cid = .ok s := by
  unfold clusterLabelFor
  by_cases hcid : cid = -1
  · rw [if_pos hcid]
    exact ⟨_, rfl⟩
  · rw [if_neg hcid]
    dsimp only
    have hprof' : ∀ r ∈ rows.filter (fun r => r.cluster == cid),
        r.user_profile.isSome = true :=
      fun r hr => hprof r (List.mem_of_mem_filter hr)
    cases hmem : rows.filter (fun r => r.cluster == cid) with
    | nil => exact absurd hmem hm
    | cons m ms =>
      cases ms with
      | nil => exact ⟨_, rfl⟩
      | cons m2 ms2 =>
        rw [hmem] at hprof'
        have hint : (m :: m2 :: ms2).map (fun r => r.intent) ≠ [] := by simp
        obtain ⟨s1, hs1⟩ := seriesModeHead_some hint
        have hpne : ((m :: m2 :: ms2).map (fun r => r.user_profile)).filterMap id ≠ [] :=
          filterMap_profiles_ne_nil hprof' (by simp)
        obtain ⟨s2, hs2⟩ := seriesModeHead_some hpne
        rw [hs1, hs2]
        exact ⟨_, rfl⟩

theorem labelsFor_ok {rows : List PartialRow} :
    ∀ (ids : List ℤ),
      (∀ cid ∈ ids, rows.filter (fun r => r.cluster == cid) ≠ []) →
      (∀ r ∈ rows, r.user_profile.isSome = true) →
      ∃ m, labelsFor rows ids = .ok m := by
  intro ids
  induction ids with
  | nil => intro _ _; exact ⟨[], rfl⟩
  | cons cid rest ih =>
    intro hmem hprof
    obtain ⟨s, hs⟩ := clusterLabelFor_ok (hmem cid (List.mem_cons_self cid rest)) hprof
    obtain ⟨m, hmrest⟩ := ih (fun c hc => hmem c (List.mem_cons_of_mem cid hc)) hprof
    refine ⟨(cid, s) :: m, ?_⟩
    unfold labelsFor
    rw [hs, hmrest]

theorem finishClustering_ok {nlp : Option NlpModel} {ps : List Str}
    {krows : List KwRow} {clusters : List ℤ}
    (hp : ps ≠ []) (hlen : clusters.length = krows.length) :
    ∃ out, finishClustering nlp ps krows clusters = .ok out ∧
      out.map (fun r => r.keyword) = krows.map (fun r => r.keyword) := by
  unfold finishClustering
  have hprof : ∀ r ∈ buildPartialRows nlp ps krows clusters, r.user_profile.isSome = true :=
    fun r hr => buildPartialRows_profile nlp ps hp krows clusters r hr
  have hmem : ∀ cid ∈ uniqueFirstInt []
      ((buildPartialRows nlp ps krows clusters).map (fun r => r.cluster)),
      (buildPartialRows nlp ps krows clusters).filter (fun r => r.cluster == cid) ≠ [] :=
    fun cid hc => members_ne_nil (uniqueFirstInt_sub [] _ cid hc)
  obtain ⟨m, hm⟩ := labelsFor_ok _ hmem hprof
  dsimp only
  rw [hm]
  refine ⟨_, rfl, ?_⟩
  rw [List.map_map]
  exact (buildPartialRows_proj nlp ps krows clusters hlen).1

theorem randClusters_length (rng : Nat → Nat) (k n : Nat) :
    (randClusters rng k n).length = n := by simp [randClusters]

theorem communitiesToClusters_length (n : Nat) (comms : List (List Nat)) :
    (communitiesToClusters n comms).length = n := by simp [communitiesToClusters]

theorem buildFallbackRows_proj (nlp : Option NlpModel) (ps : List Str) :
    ∀ (rs : List KwRow) (cs : List ℤ), cs.length = rs.length →
      (buildFallbackRows nlp ps rs cs).map (fun r => r.keyword) =
          rs.map (fun r => r.keyword) ∧
        (buildFallbackRows nlp ps rs cs).map (fun r => r.volume) =
          rs.map (fun r => r.volume) ∧
        (buildFallbackRows nlp ps rs cs).map (fun r => r.cpc) =
          rs.map (fun r => r.cpc) ∧
        (buildFallbackRows nlp ps rs cs).map (fun r => r.competition) =
          rs.map (fun r => r.competition) := by
  intro rs
  induction rs with
  | nil => intro cs _; simp [buildFallbackRows]
  | cons r rt ih =>
    intro cs hlen
    cases cs with
    | nil => simp at hlen
    | cons c ct =>
      have hlen' : ct.length = rt.length := by simpa using hlen
      obtain ⟨h1, h2, h3, h4⟩ := ih ct hlen'
      simp only [buildFallbackRows, List.map_cons]
      exact ⟨by rw [h1], by rw [h2], by rw [h3], by rw [h4]⟩

theorem finishClustering_proj {nlp : Option NlpModel} {ps : List Str}
    {krows : List KwRow} {clusters : List ℤ} {out : List ClusteredRow}
    (hlen : clusters.length = krows.length)
    (h : finishClustering nlp ps krows clusters = .ok out) :
    out.map (fun r => r.keyword) = krows.map (fun r => r.keyword) ∧
      out.map (fun r => r.volume) = krows.map (fun r => r.volume) ∧
      out.map (fun r => r.cpc) = krows.map (fun r => r.cpc) ∧
      out.map (fun r => r.competition) = krows.map (fun r => r.competition) := by
  unfold finishClustering at h
  dsimp only at h
  cases hl : labelsFor (buildPartialRows nlp ps krows clusters)
      (uniqueFirstInt []
        ((buildPartialRows nlp ps krows clusters).map (fun r => r.cluster))) with
  | error e => rw [hl] at h; cases h
  | ok m =>
    rw [hl] at h
    cases h
    obtain ⟨h1, h2, h3, h4⟩ := buildPartialRows_proj nlp ps krows clusters hlen
    refine ⟨?_, ?_, ?_, ?_⟩
    · rw [List.map_map]; exact h1
    · rw [List.map_map]; exact h2
    · rw [List.map_map]; exact h3
    · rw [List.map_map]; exact h4

/-- C4 (amended): provided the configured profile set is non-empty and a
supplied KMeans cluster-count hint is positive, `cluster_keywords` never
propagates an exception: whatever the embedding and clustering oracles do
— in particular when they raise and a random fallback assignment is taken
— every input keyword receives exactly one assignment, in input order. -/
theorem cluster_keywords_fallback_amended {E : Type} (env : ClusterEnv E)
    (ps : List Str) (rows : List KwRow) (hint : Option Nat) (method : ClusterMethod)
    (hp : ps ≠ []) (hk : ∀ k, hint = some k → 0 < k) :
    ∃ out, cluster_keywords env ps rows hint method = .ok out ∧
      out.map (fun r => r.keyword) = rows.map (fun r => r.keyword) := by
  unfold cluster_keywords
  by_cases hrows : rows = []
  · rw [if_pos hrows]
    exact ⟨[], rfl, by simp [hrows]⟩
  · rw [if_neg hrows]
    dsimp only
    cases hemb : env.createEmbeddings (rows.map (fun r => preprocess_text r.keyword)) with
    | error e =>
      refine ⟨_, rfl, ?_⟩
      exact (buildFallbackRows_proj env.nlp ps rows _
        (by rw [randClusters_length])).1
    | ok embeddings =>
      have hembLen : embeddings.val.length = rows.length := by
        rw [embeddings.property]; simp
      cases method with
      | kmeans =>
        cases hint with
        | none =>
          dsimp only
          cases hfit : env.kmeansFit (min (max 3 (rows.length / 10)) 10) embeddings.val with
          | ok l =>
            exact finishClustering_ok hp (by rw [l.property, hembLen])
          | error e =>
            rw [if_neg (by omega)]
            exact finishClustering_ok hp (by rw [randClusters_length])
        | some k =>
          have hkpos : 0 < k := hk k rfl
          dsimp only
          cases hfit : env.kmeansFit k embeddings.val with
          | ok l =>
            exact finishClustering_ok hp (by rw [l.property, hembLen])
          | error e =>
            rw [if_neg (by omega)]
            exact finishClustering_ok hp (by rw [randClusters_length])
      | dbscan =>
        dsimp only
        cases hfit : env.dbscanFit embeddings.val with
        | ok l =>
          exact finishClustering_ok hp (by rw [l.property, hembLen])
        | error e =>
          exact finishClustering_ok hp (by rw [randClusters_length])
      | graph =>
        dsimp only
        cases hfit : env.graphCommunities embeddings.val with
        | ok comms =>
          exact finishClustering_ok hp (by rw [communitiesToClusters_length])
        | error e =>
          exact finishClustering_ok hp (by rw [randClusters_length])

/-- Witness for C4: a concrete run in which the KMeans backend raises,
with a configured (non-empty) profile set; the fallback completes with
one row per keyword. -/
theorem cluster_keywords_fallback_amended_witness :
    ∃ out, cluster_keywords failEnv [("marketer").data] testRows (some 2)
        ClusterMethod.kmeans = .ok out ∧
      out.map (fun r => r.keyword) = testRows.map (fun r => r.keyword) :=
  cluster_keywords_fallback_amended failEnv [("marketer").data] testRows (some 2)
    ClusterMethod.kmeans (by simp)
    (fun k hk => by cases hk; omega)

theorem map_keyword_length {out : List ClusteredRow} {rows : List KwRow}
    (h : out.map (fun r => r.keyword) = rows.map (fun r => r.keyword)) :
    out.length = rows.length := by
  have := congrArg List.length h
  simpa using this

/-- C10: `cluster_keywords` enriches the caller's DataFrame (in the
source, by in-place column assignment on the passed object, which is also
returned): whenever it returns rows, they carry the five added columns
and the pre-existing keyword, volume, cpc and competition values are
unchanged, row for row, in the original order. -/
theorem cluster_keywords_frame {E : Type} (env : ClusterEnv E) (ps : List Str)
    (rows : List KwRow) (hint : Option Nat) (method : ClusterMethod)
    (out : List ClusteredRow)
    (h : cluster_keywords env ps rows hint method = .ok out) :
    out.map (fun r => r.keyword) = rows.map (fun r => r.keyword) ∧
      out.map (fun r => r.volume) = rows.map (fun r => r.volume) ∧
      out.map (fun r => r.cpc) = rows.map (fun r => r.cpc) ∧
      out.map (fun r => r.competition) = rows.map (fun r => r.competition) ∧
      out.length = rows.length := by
  unfold cluster_keywords at h
  by_cases hrows : rows = []
  · rw [if_pos hrows] at h
    cases h
    refine ⟨?_, ?_, ?_, ?_, ?_⟩ <;> simp [hrows]
  · rw [if_neg hrows] at h
    dsimp only at h
    cases hemb : env.createEmbeddings (rows.map (fun r => preprocess_text r.keyword)) with
    | error e =>
      rw [hemb] at h
      dsimp only at h
      cases h
      obtain ⟨h1, h2, h3, h4⟩ := buildFallbackRows_proj env.nlp ps rows
        (randClusters env.rng 5 rows.length) (by rw [randClusters_length])
      exact ⟨h1, h2, h3, h4, map_keyword_length h1⟩
    | ok embeddings =>
      have hembLen : embeddings.val.length = rows.length := by
        rw [embeddings.property]; simp
      rw [hemb] at h
      dsimp only at h
      cases method with
      | kmeans =>
        cases hint with
        | none =>
          dsimp only at h
          cases hfit : env.kmeansFit (min (max 3 (rows.length / 10)) 10)
              embeddings.val with
          | ok l =>
            rw [hfit] at h
            dsimp only at h
            obtain ⟨h1, h2, h3, h4⟩ :=
              finishClustering_proj (by rw [l.property, hembLen]) h
            exact ⟨h1, h2, h3, h4, map_keyword_length h1⟩
          | error e =>
            rw [hfit] at h
            dsimp only at h
            rw [if_neg (by omega : ¬ min (max 3 (rows.length / 10)) 10 = 0)] at h
            dsimp only at h
            obtain ⟨h1, h2, h3, h4⟩ :=
              finishClustering_proj (by rw [randClusters_length]) h
            exact ⟨h1, h2, h3, h4, map_keyword_length h1⟩
        | some k =>
          dsimp only at h
          cases hfit : env.kmeansFit k embeddings.val with
          | ok l =>
            rw [hfit] at h
            dsimp only at h
            obtain ⟨h1, h2, h3, h4⟩ :=
              finishClustering_proj (by rw [l.property, hembLen]) h
            exact ⟨h1, h2, h3, h4, map_keyword_length h1⟩
          | error e =>
            rw [hfit] at h
            dsimp only at h
            by_cases hk0 : k = 0
            · rw [if_pos hk0] at h
              cases h
            · rw [if_neg hk0] at h
              dsimp only at h
              obtain ⟨h1, h2, h3, h4⟩ :=
                finishClustering_proj (by rw [randClusters_length]) h
              exact ⟨h1, h2, h3, h4, map_keyword_length h1⟩
      | dbscan =>
        dsimp only at h
        cases hfit : env.dbscanFit embeddings.val with
        | ok l =>
          rw [hfit] at h
          dsimp only at h
          obtain ⟨h1, h2, h3, h4⟩ :=
            finishClustering_proj (by rw [l.property, hembLen]) h
          exact ⟨h1, h2, h3, h4, map_keyword_length h1⟩
        | error e =>
          rw [hfit] at h
          dsimp only at h
          obtain ⟨h1, h2, h3, h4⟩ :=
            finishClustering_proj (by rw [randClusters_length]) h
          exact ⟨h1, h2, h3, h4, map_keyword_length h1⟩
      | graph =>
        dsimp only at h
        cases hfit : env.graphCommunities embeddings.val with
        | ok comms =>
          rw [hfit] at h
          dsimp only at h
          obtain ⟨h1, h2, h3, h4⟩ :=
            finishClustering_proj (by rw [communitiesToClusters_length]) h
          exact ⟨h1, h2, h3, h4, map_keyword_length h1⟩
        | error e =>
          rw [hfit] at h
          dsimp only at h
          obtain ⟨h1, h2, h3, h4⟩ :=
            finishClustering_proj (by rw [randClusters_length]) h
          exact ⟨h1, h2, h3, h4, map_keyword_length h1⟩

/-- Witness for C10: a successful concrete run (configured profile
"marketer", all oracles succeeding) whose output preserves the keyword
column. -/
theorem cluster_keywords_frame_witness :
    ∃ out, cluster_keywords testEnv [("marketer").data] testRows (some 2)
        ClusterMethod.kmeans = .ok out ∧
      out.map (fun r => r.keyword) = testRows.map (fun r => r.keyword) := by
  cases hres : cluster_keywords testEnv [("marketer").data] testRows (some 2)
      ClusterMethod.kmeans with
  | error e =>
    cases e
    have hok : (cluster_keywords testEnv [("marketer").data] testRows (some 2)
        ClusterMethod.kmeans).isOk = true := rfl
    rw [hres] at hok
    cases hok
  | ok out =>
    refine ⟨out, rfl, ?_⟩
    exact (cluster_keywords_frame testEnv [("marketer").data] testRows (some 2)
      ClusterMethod.kmeans out hres).1

/-- C6 counterexample: with an empty configured profile set the assigner
returns `None`, not the string "general". -/
theorem assign_user_profile_empty_cex :
    assign_user_profile none [] (("hiring").data) = none ∧
      assign_user_profile none [] (("hiring").data) ≠ some (("general").data) :=
  ⟨rfl, by decide⟩

/-- C6 (amended): for an empty configured profile set the assigner
returns `None` (the null profile); "general" is what a non-empty
configured set yields when no profile scores above the threshold — e.g.
a configured profile unknown to the marker table. -/
theorem assign_user_profile_empty_amended :
    (∀ (nlp : Option NlpModel) (kw : Str), assign_user_profile nlp [] kw = none) ∧
    (∀ (nlp : Option NlpModel) (kw : Str),
      assign_user_profile nlp [("marketer").data] kw = some (("general").data)) := by
  constructor
  · intro nlp kw
    unfold assign_user_profile
    rw [if_pos rfl]
  · intro nlp kw
    unfold assign_user_profile
    rw [if_neg (by simp)]
    dsimp only
    rw [show profileKeywordsTable.filter
        (fun p => strElem p.1 [("marketer").data]) = [] from by decide]
    simp only [List.map_nil]
    cases nlp <;> split_ifs <;> rfl

/-! ### Ranking tracking: `track_keyword_rankings`
(src/modules/opportunity_tracker.py, lines 34-104)

The model covers the construction of the per-keyword rankings list
(lines 47-78): the SERP client is an oracle; a raised lookup is turned
into the placeholder entry with an error marker.  The CSV persistence and
history merge (lines 84-103) are file I/O, out of scope. -/

/-- One SERP result as consumed by the tracker (`result['url']`, which
may be missing). -/
structure SerpResult where
  url : Option Str
deriving DecidableEq

/-- The ranking scan (lines 57-61): position (1-based) of the first
result whose url contains the domain as a substring; 0 when none does. -/
def findRanking (domain : Str) : Nat → List SerpResult → Nat
  | _, [] => 0
  | i, r :: rest =>
    match r.url with
    | some u => if strIn domain u then i + 1 else findRanking domain (i + 1) rest
    | none => findRanking domain (i + 1) rest

/-- A row of the rankings DataFrame (lines 63-78); `error` records
whether the placeholder error field was attached. -/
structure RankEntry where
  keyword : Str
  ranking : Nat
  date : Str
  in_top_100 : Bool
  error : Bool
deriving DecidableEq

/-- The per-keyword body of the tracking loop (lines 52-78). -/
def trackEntry (serp : Str → Except Unit (List SerpResult)) (domain today : Str)
    (keyword : Str) : RankEntry :=
  match serp keyword with
  | .ok serp_results =>
    let ranking := findRanking domain 0 serp_results
    { keyword := keyword, ranking := ranking, date := today,
      in_top_100 := decide (0 < ranking), error := false }
  | .error _ =>
    { keyword := keyword, ranking := 0, date := today,
      in_top_100 := false, error := true }

/-- Model of `OpportunityTracker.track_keyword_rankings` (lines 34-81):
`for keyword in keywords[:min(len(keywords), 30)]`, one entry per
processed keyword. -/
def track_keyword_rankings (serp : Str → Except Unit (List SerpResult))
    (domain today : Str) (keywords : List Str) : List RankEntry :=
  (keywords.take (min keywords.length 30)).map (trackEntry serp domain today)

theorem map_trackEntry_keyword (serp : Str → Except Unit (List SerpResult))
    (domain today : Str) :
    ∀ ks : List Str,
      (ks.map (trackEntry serp domain today)).map (fun e => e.keyword) = ks := by
  intro ks
  induction ks with
  | nil => rfl
  | cons k t ih =>
    simp only [List.map_cons, ih]
    congr 1
    unfold trackEntry
    cases serp k <;> rfl

theorem take_min_length (l : List Str) (n : Nat) : l.take (min l.length n) = l.take n := by
  rcases Nat.le_total l.length n with h | h
  · rw [Nat.min_eq_left h, List.take_of_length_le h, List.take_of_length_le (le_refl _)]
  · rw [Nat.min_eq_right h]

/-- C9: `track_keyword_rankings` processes exactly the first
`min(len, 30)` keywords: the produced entries are, in order, one per
keyword of `keywords[:30]` — so keywords beyond position 30 yield no
entry at all (they are silently truncated, not marked as failed; the
error marker only ever applies to a keyword within the first 30). -/
theorem track_keyword_rankings_truncates (serp : Str → Except Unit (List SerpResult))
    (domain today : Str) (keywords : List Str) :
    (track_keyword_rankings serp domain today keywords).map (fun e => e.keyword) =
        keywords.take 30 ∧
      (track_keyword_rankings serp domain today keywords).length =
        min keywords.length 30 ∧
      ∀ e ∈ track_keyword_rankings serp domain today keywords,
        e.keyword ∈ keywords.take 30 := by
  have hmap : (track_keyword_rankings serp domain today keywords).map (fun e => e.keyword) =
      keywords.take 30 := by
    unfold track_keyword_rankings
    rw [map_trackEntry_keyword, take_min_length]
  refine ⟨hmap, ?_, ?_⟩
  · unfold track_keyword_rankings
    simp only [List.length_map, List.length_take]
    omega
  · intro e he
    have : e.keyword ∈ (track_keyword_rankings serp domain today keywords).map
        (fun x => x.keyword) := List.mem_map_of_mem _ he
    rw [hmap] at this
    exact this

/-! ### Top keywords per cluster: `get_top_keywords_by_cluster`
(src/modules/keyword_clustering.py, lines 274-307) -/

/-- A row of a clustered DataFrame as consumed by
`get_top_keywords_by_cluster`: the keyword, the value of the metric
column named by the caller (volume/cpc/...), the cluster id and the
cluster label. -/
structure TRow where
  keyword : Str
  metric : ℚ
  cluster : ℤ
  cluster_label : Str
deriving DecidableEq

/-- Descending order on rows by the metric column. -/
def rowMetricGe (a b : TRow) : Prop := b.metric ≤ a.metric

instance : DecidableRel rowMetricGe :=
  fun a b => inferInstanceAs (Decidable (b.metric ≤ a.metric))

instance : IsTotal TRow rowMetricGe := ⟨fun a b => le_total b.metric a.metric⟩

instance : IsTrans TRow rowMetricGe := ⟨fun _ _ _ h1 h2 => le_trans h2 h1⟩

/-- Model of `cluster_df.sort_values(by=metric, ascending=False)`.
pandas' default quicksort leaves the order of ties unspecified; numpy
falls back to a stable insertion sort for the small partitions arising
per cluster, which is what the stable `insertionSort` models. -/
def sortValuesDesc (rows : List TRow) : List TRow :=
  List.insertionSort rowMetricGe rows

/-- Python dict assignment `d[k] = v`: replaces in place or appends. -/
def updateAssoc (k : Str) (v : List Str) : List (Str × List Str) → List (Str × List Str)
  | [] => [(k, v)]
  | (k', v') :: t => if k' = k then (k, v) :: t else (k', v') :: updateAssoc k v t

/-- Python dict lookup. -/
def lookupAssoc (k : Str) : List (Str × List Str) → Option (List Str)
  | [] => none
  | (k', v') :: t => if k' = k then some v' else lookupAssoc k t

/-- `cluster_df['cluster_label'].iloc[0]`: the label of the first row of
the group (the group is never empty, its id comes from `unique`). -/
def labelHead (rows : List TRow) (cid : ℤ) : Str :=
  match rows.filter (fun r => r.cluster == cid) with
  | [] => []
  | r :: _ => r.cluster_label

/-- The loop body of `get_top_keywords_by_cluster` for one cluster id. -/
def topStep (hasLabel hasMetric : Bool) (clustered_df : List TRow) (top_n : Nat)
    (acc : List (Str × List Str)) (cid : ℤ) : List (Str × List Str) :=
  let cluster_df := clustered_df.filter (fun r => r.cluster == cid)
  let label := if hasLabel then labelHead clustered_df cid
    else ("Cluster ").data ++ intToStr cid
  if hasMetric then
    updateAssoc label (((sortValuesDesc cluster_df).take top_n).map (fun r => r.keyword)) acc
  else
    updateAssoc label ((cluster_df.take top_n).map (fun r => r.keyword)) acc

/-- Model of `KeywordClusterer.get_top_keywords_by_cluster`
(lines 274-307).  `hasLabel` and `hasMetric` model the two
column-presence checks (`'cluster_label' in cluster_df.columns`,
`metric in cluster_df.columns`). -/
def get_top_keywords_by_cluster (hasLabel hasMetric : Bool)
    (clustered_df : List TRow) (top_n : Nat) : List (Str × List Str) :=
  if clustered_df = [] then []
  else
    (uniqueFirstInt [] (clustered_df.map (fun r => r.cluster))).foldl
      (topStep hasLabel hasMetric clustered_df top_n) []

/-- Two singleton clusters sharing one label. -/
def collisionRows : List TRow :=
  [⟨("a").data, 5, 0, ("L").data⟩, ⟨("b").data, 3, 1, ("L").data⟩]

/-- C5 counterexample: the function keys its result by cluster id's
first-row label, so when two cluster ids carry the same label the later
id's list overwrites the earlier one's: label "L" has member keywords
["a", "b"] (descending by metric), but only ["b"] — cluster id 1's top
list — is returned. -/
theorem get_top_keywords_label_collision_cex :
    get_top_keywords_by_cluster true true collisionRows 2 =
        [((("L").data), [("b").data])] ∧
      (collisionRows.filter (fun r => r.cluster_label == ("L").data)).map
          (fun r => r.keyword) = [("a").data, ("b").data] := by
  constructor
  · decide
  · decide

/-- The value stored for one cluster id: its members descending by the
metric, truncated to `n`, as keywords. -/
def topValue (rows : List TRow) (n : Nat) (cid : ℤ) : List Str :=
  ((sortValuesDesc (rows.filter (fun r => r.cluster == cid))).take n).map
    (fun r => r.keyword)

theorem topStep_true_eq (rows : List TRow) (n : Nat)
    (acc : List (Str × List Str)) (cid : ℤ) :
    topStep true true rows n acc cid =
      updateAssoc (labelHead rows cid) (topValue rows n cid) acc := rfl

theorem lookupAssoc_update (k : Str) (v : List Str) (label : Str) :
    ∀ acc, lookupAssoc label (updateAssoc k v acc) =
      if label = k then some v else lookupAssoc label acc := by
  intro acc
  induction acc with
  | nil =>
    simp only [updateAssoc, lookupAssoc]
    by_cases h : label = k
    · subst h
      simp
    · rw [if_neg (fun hc => h hc.symm), if_neg h]
  | cons p t ih =>
    obtain ⟨k', v'⟩ := p
    by_cases h1 : k' = k
    · subst h1
      simp only [updateAssoc, if_pos rfl, lookupAssoc]
      by_cases h2 : label = k'
      · subst h2
        rw [if_pos rfl, if_pos rfl]
      · rw [if_neg (fun hc => h2 hc.symm), if_neg h2, if_neg (fun hc => h2 hc.symm)]
    · simp only [updateAssoc, if_neg h1, lookupAssoc]
      by_cases h3 : k' = label
      · subst h3
        have hlk : ¬(k' = k) := h1
        rw [if_pos rfl, if_neg hlk, if_pos rfl]
      · rw [if_neg h3, ih]
        by_cases h4 : label = k
        · rw [if_pos h4, if_pos h4]
        · rw [if_neg h4, if_neg h4, if_neg h3]

theorem lookupAssoc_update_isSome (k : Str) (v : List Str) (label : Str)
    (acc : List (Str × List Str)) (h : (lookupAssoc label acc).isSome = true) :
    (lookupAssoc label (updateAssoc k v acc)).isSome = true := by
  rw [lookupAssoc_update]
  split_ifs with hc
  · rfl
  · exact h

/-- An entry of the result mapping is the top list of some cluster id
whose first-row label is the key. -/
def goodEntry (rows : List TRow) (n : Nat) (label : Str) (ks : List Str) : Prop :=
  ∃ cid, cid ∈ uniqueFirstInt [] (rows.map (fun r => r.cluster)) ∧
    labelHead rows cid = label ∧ ks = topValue rows n cid

theorem fold_good (rows : List TRow) (n : Nat) :
    ∀ (ids : List ℤ) (acc : List (Str × List Str)),
      (∀ cid ∈ ids, cid ∈ uniqueFirstInt [] (rows.map (fun r => r.cluster))) →
      (∀ label ks, lookupAssoc label acc = some ks → goodEntry rows n label ks) →
      ∀ label ks,
        lookupAssoc label (ids.foldl (topStep true true rows n) acc) = some ks →
        goodEntry rows n label ks := by
  intro ids
  induction ids with
  | nil => intro acc _ hacc label ks h; exact hacc label ks h
  | cons cid rest ih =>
    intro acc hsub hacc label ks h
    rw [List.foldl_cons] at h
    refine ih (topStep true true rows n acc cid)
      (fun c hc => hsub c (List.mem_cons_of_mem cid hc)) ?_ label ks h
    intro label' ks' h'
    rw [topStep_true_eq, lookupAssoc_update] at h'
    split_ifs at h' with heq
    · cases h'
      exact ⟨cid, hsub cid (List.mem_cons_self cid rest), heq.symm, rfl⟩
    · exact hacc label' ks' h'

theorem fold_keys (rows : List TRow) (n : Nat) :
    ∀ (ids : List ℤ) (acc : List (Str × List Str)) (cid : ℤ),
      (cid ∈ ids ∨ (lookupAssoc (labelHead rows cid) acc).isSome = true) →
      (lookupAssoc (labelHead rows cid)
        (ids.foldl (topStep true true rows n) acc)).isSome = true := by
  intro ids
  induction ids with
  | nil =>
    intro acc cid h
    rcases h with hm | hs
    · cases hm
    · exact hs
  | cons id rest ih =>
    intro acc cid h
    rw [List.foldl_cons]
    apply ih
    rcases h with hm | hs
    · rcases List.mem_cons.mp hm with h1 | h1
      · right
        rw [topStep_true_eq, lookupAssoc_update, if_pos (by rw [h1])]
        rfl
      · left; exact h1
    · right
      rw [topStep_true_eq]
      exact lookupAssoc_update_isSome _ _ _ acc hs

/-- C5 (amended): an empty clustered collection yields the empty mapping;
every entry of the result is keyed by the first-row label of some cluster
id and holds that id's member keywords in an order sorted descending by
the metric (a permutation of the id's members), truncated to the first n
(so n larger than the group returns all members); and every cluster id
contributes an entry under its label — when several ids share one label
the later id's list overwrites the earlier one's, so the surviving value
belongs to one of them rather than to the union of the label's members. -/
theorem get_top_keywords_amended :
    (∀ (hasLabel hasMetric : Bool) (n : Nat),
      get_top_keywords_by_cluster hasLabel hasMetric [] n = []) ∧
    (∀ (rows : List TRow) (n : Nat) (label : Str) (ks : List Str),
      lookupAssoc label (get_top_keywords_by_cluster true true rows n) = some ks →
      ∃ cid, cid ∈ uniqueFirstInt [] (rows.map (fun r => r.cluster)) ∧
        labelHead rows cid = label ∧
        ∃ sorted : List TRow,
          sorted.Perm (rows.filter (fun r => r.cluster == cid)) ∧
          List.Sorted rowMetricGe sorted ∧
          ks = (sorted.take n).map (fun r => r.keyword)) ∧
    (∀ (rows : List TRow) (n : Nat) (cid : ℤ),
      cid ∈ uniqueFirstInt [] (rows.map (fun r => r.cluster)) →
      ∃ ks, lookupAssoc (labelHead rows cid)
        (get_top_keywords_by_cluster true true rows n) = some ks) := by
  refine ⟨?_, ?_, ?_⟩
  · intro hasLabel hasMetric n
    rfl
  · intro rows n label ks h
    by_cases hrows : rows = []
    · rw [hrows] at h
      simp [get_top_keywords_by_cluster, lookupAssoc] at h
    · unfold get_top_keywords_by_cluster at h
      rw [if_neg hrows] at h
      have hg := fold_good rows n (uniqueFirstInt [] (rows.map (fun r => r.cluster))) []
        (fun c hc => hc) (fun l k hk => by simp [lookupAssoc] at hk) label ks h
      obtain ⟨cid, hcid, hlab, hks⟩ := hg
      refine ⟨cid, hcid, hlab,
        sortValuesDesc (rows.filter (fun r => r.cluster == cid)),
        List.perm_insertionSort rowMetricGe _,
        List.sorted_insertionSort rowMetricGe _, ?_⟩
      rw [hks]
      rfl
  · intro rows n cid hcid
    have hrows : rows ≠ [] := by
      intro hc
      rw [hc] at hcid
      cases hcid
    unfold get_top_keywords_by_cluster
    rw [if_neg hrows]
    have hk := fold_keys rows n (uniqueFirstInt [] (rows.map (fun r => r.cluster))) []
      cid (Or.inl hcid)
    exact Option.isSome_iff_exists.mp hk

/-- Witness for C5: the collision example, where the surviving entry
under label "L" is the top list of cluster id 1. -/
theorem get_top_keywords_amended_witness :
    ∃ cid, cid ∈ uniqueFirstInt [] (collisionRows.map (fun r => r.cluster)) ∧
      labelHead collisionRows cid = ("L").data ∧
      ∃ sorted : List TRow,
        sorted.Perm (collisionRows.filter (fun r => r.cluster == cid)) ∧
        List.Sorted rowMetricGe sorted ∧
        [("b").data] = (sorted.take 2).map (fun r => r.keyword) :=
  get_top_keywords_amended.2.1 collisionRows 2 (("L").data) [("b").data] (by decide)

/-- Witness for C9: a concrete two-keyword run; the first produced entry
belongs to the first 30 keywords. -/
theorem track_keyword_rankings_truncates_witness :
    (⟨("alpha").data, 0, ("t").data, false, false⟩ : RankEntry).keyword ∈
      ([("alpha").data, ("beta").data] : List Str).take 30 :=
  (track_keyword_rankings_truncates (fun _ => .ok []) (("d").data) (("t").data)
    [("alpha").data, ("beta").data]).2.2
    ⟨("alpha").data, 0, ("t").data, false, false⟩ (by decide)
